import Mathlib

/-
Verification development for the zap-file-sharing repository.

The relay side is embedded from src/backend/server.js; the endpoint side
(transfer session state machine and chunked transport driver) is embedded
from src/frontend/src/app.jsx.  JavaScript objects become Lean structures,
the in-memory user table becomes an association list, socket.io delivery
(io.to(room).emit) becomes a function from server state to a list of
(recipient, message) pairs, and the event handlers become pure functions
from state and message to state plus emitted effects.
-/

namespace Zap

/-- Display identity object, as stored in the relay user table:
{ name: 'Lion', emoji: ... }. -/
structure Nickname where
  name : String
  emoji : String
deriving DecidableEq

/-- File metadata sent with a transfer request:
{ name: file.name, size: file.size, type: file.type }. -/
structure FileMeta where
  name : String
  size : Nat
  ftype : String
deriving DecidableEq

/-- The relay user table: let users = {}; keys are socket ids.
Modelled as an association list preserving JavaScript object key order. -/
abbrev Registry := List (String × Nickname)

/-- users[cid] lookup: first entry with the given key, none if absent. -/
def regLookup : Registry → String → Option Nickname
  | [], _ => none
  | (k, v) :: rest, cid => if k = cid then some v else regLookup rest cid

/-- users[cid] = { nickname }: overwrites in place when the key exists,
otherwise appends (JavaScript object assignment order). -/
def regInsert : Registry → String → Nickname → Registry
  | [], cid, nk => [(cid, nk)]
  | (k, v) :: rest, cid, nk =>
    if k = cid then (k, nk) :: rest else (k, v) :: regInsert rest cid nk

/-- delete users[cid]. -/
def regErase (r : Registry) (cid : String) : Registry :=
  r.filter (fun p => p.1 != cid)

/-- The server-side validity check on a received nickname value:
nickname && typeof nickname === 'object' && nickname.name.
none models a value that is not an object carrying a name property;
an empty name string is falsy in JavaScript. -/
def validNick : Option Nickname → Bool
  | some nk => nk.name != ""
  | none => false

/-- The three mutating operations on the user table: the user-joined
handler, the update-nickname handler, and the disconnect handler. -/
inductive RegOp where
  | register (cid : String) (nk : Option Nickname)
  | updateNick (cid : String) (nk : Option Nickname)
  | remove (cid : String)
deriving DecidableEq

/-- The payload of io.emit('update-user-list', ...):
Object.keys(users).map(id => ({ id, ...users[id] })), i.e. the full
current table, one entry per registered socket id. -/
def broadcastList (r : Registry) : Registry := r

/-- One handler invocation on the user table.  Returns the new table and
the user-list broadcast payload when one is emitted (io.emit goes to every
connected socket). -/
def regStep (r : Registry) : RegOp → Registry × Option Registry
  | .register cid nk =>
    if validNick nk then
      match nk with
      | some n =>
        let r2 := regInsert r cid n
        (r2, some (broadcastList r2))
      | none => (r, none)
    else (r, none)
  | .updateNick cid nk =>
    match regLookup r cid with
    | some _ =>
      if validNick nk then
        match nk with
        | some n =>
          let r2 := regInsert r cid n
          (r2, some (broadcastList r2))
        | none => (r, none)
      else (r, none)
    | none => (r, none)
  | .remove cid =>
    match regLookup r cid with
    | some _ =>
      let r2 := regErase r cid
      (r2, some (broadcastList r2))
    | none => (r, none)

/-- The user table reached by running a sequence of handler invocations
from the empty table. -/
def regRun (ops : List RegOp) : Registry :=
  ops.foldl (fun r op => (regStep r op).1) []

/-- Projection of one registry operation onto a single connection id:
the most recently accepted identity for that id after the operation. -/
def perIdStep (cid : String) (cur : Option Nickname) : RegOp → Option Nickname
  | .register c nk =>
    if c = cid then
      match nk with
      | some n => if n.name != "" then some n else cur
      | none => cur
    else cur
  | .updateNick c nk =>
    if c = cid then
      match nk, cur with
      | some n, some _ => if n.name != "" then some n else cur
      | _, _ => cur
    else cur
  | .remove c => if c = cid then none else cur

/-- The most recently accepted identity for one connection id over a whole
operation sequence, starting unregistered. -/
def perIdRun (cid : String) (ops : List RegOp) : Option Nickname :=
  ops.foldl (perIdStep cid) none

/-- Relay state: the set of connected sockets (each socket.io socket sits
in a room named by its own id, so io.to(id) reaches exactly the connected
socket with that id) together with the user table. -/
structure ServerState where
  connected : List String
  users : Registry
deriving DecidableEq

/-- Client-to-relay control messages, one constructor per handled event.
Session descriptions and candidates are opaque pass-through blobs. -/
inductive CMsg where
  | fileRequest (dst fromF : String) (file : FileMeta)
  | fileAccept (dst : String)
  | fileReject (dst : String)
  | rtcOffer (dst : String) (sdp : String)
  | rtcAnswer (dst : String) (sdp : String)
  | iceCandidate (dst : String) (cand : String)
deriving DecidableEq

/-- Relay-to-client forwarded messages, as emitted by the handlers in
server.js. -/
inductive SMsg where
  | fileRequest (fromF : String) (senderNickname : Option Nickname) (file : FileMeta)
  | fileAccept (fromF : String)
  | fileReject (fromF : String)
  | rtcOffer (fromF : String) (sdp : String)
  | rtcAnswer (fromF : String) (sdp : String)
  | iceCandidate (fromF : String) (cand : String)
deriving DecidableEq

/-- The from field carried by a forwarded message. -/
def SMsg.fromField : SMsg → String
  | .fileRequest f _ _ => f
  | .fileAccept f => f
  | .fileReject f => f
  | .rtcOffer f _ => f
  | .rtcAnswer f _ => f
  | .iceCandidate f _ => f

/-- The to field of a client control message. -/
def CMsg.toField : CMsg → String
  | .fileRequest t _ _ => t
  | .fileAccept t => t
  | .fileReject t => t
  | .rtcOffer t _ => t
  | .rtcAnswer t _ => t
  | .iceCandidate t _ => t

/-- The client-supplied from field, present only on file-request bodies. -/
def CMsg.claimedFrom : CMsg → Option String
  | .fileRequest _ f _ => some f
  | _ => none

/-- io.to(to).emit(...): delivered to the socket with that id when it is
connected (in its own room), otherwise delivered to nobody. -/
def deliverTo (st : ServerState) (dst : String) (m : SMsg) : List (String × SMsg) :=
  if st.connected.contains dst then [(dst, m)] else []

/-- The relay routing of one control message arriving on the connection
with id sender, exactly as the six socket.on handlers in server.js:
file-request forwards the from taken from the message body and attaches
users[from]?.nickname; every other kind stamps from with socket.id. -/
def route (st : ServerState) (sender : String) : CMsg → List (String × SMsg)
  | .fileRequest dst fromF file =>
    deliverTo st dst (.fileRequest fromF (regLookup st.users fromF) file)
  | .fileAccept dst => deliverTo st dst (.fileAccept sender)
  | .fileReject dst => deliverTo st dst (.fileReject sender)
  | .rtcOffer dst sdp => deliverTo st dst (.rtcOffer sender sdp)
  | .rtcAnswer dst sdp => deliverTo st dst (.rtcAnswer sender sdp)
  | .iceCandidate dst cand => deliverTo st dst (.iceCandidate sender cand)

/-- The transfer status values used by the frontend transferState. -/
inductive TStatus where
  | idle
  | requesting
  | accepted
  | rejected
  | sending
  | receiving
  | connecting
  | completed
  | error
deriving DecidableEq

/-- The frontend transferState object (App.jsx useState). -/
structure TransferState where
  status : TStatus
  progressPct : Nat
  fromF : Option String
  toF : Option String
  file : Option FileMeta
  senderNickname : Nickname
deriving DecidableEq

/-- The reset value set by resetTransferState (status idle, everything
cleared); also the initial state. -/
def initialTransfer : TransferState :=
  { status := .idle, progressPct := 0, fromF := none, toF := none,
    file := none, senderNickname := { name := "", emoji := "" } }

/-- One entry of the client-side user list (from update-user-list). -/
structure UserEntry where
  uid : String
  nickname : Nickname
deriving DecidableEq

/-- Log levels used by addLog. -/
inductive LogType where
  | info
  | success
  | error
deriving DecidableEq

/-- The onFileRequest handler: on a forwarded file-request, if the
attached senderNickname is an object with a truthy name, enter the
receiving state with the request data; otherwise only log and leave the
state unchanged. -/
def onFileRequest (st : TransferState) (selfId fromF : String)
    (snk : Option Nickname) (file : FileMeta) : TransferState :=
  match snk with
  | some nk =>
    if nk.name != "" then
      { status := .receiving, progressPct := 0, fromF := some fromF,
        toF := some selfId, file := some file, senderNickname := nk }
    else st
  | none => st

/-- The onFileReject handler at the initiator.  Returns the new
transferState, the sequence of status values the handler assigns (a
single resetTransferState call assigns idle once; nothing is assigned
when the sender is not in the local user list), and the log entries
written. -/
def onFileReject (users : List UserEntry) (st : TransferState)
    (fromF : String) : TransferState × List TStatus × List (String × LogType) :=
  match users.find? (fun u => u.uid == fromF) with
  | none => (st, [], [])
  | some u =>
    (initialTransfer, [TStatus.idle],
     [(u.nickname.name ++ " rejected the file.", LogType.error)])

/-- The handleRejectFile handler at the responder: with a socket and a
pending request (transferState.from set), emit file-reject to the
requester and reset to idle; otherwise do nothing. -/
def handleRejectFile (st : TransferState) : TransferState × List CMsg :=
  match st.fromF with
  | none => (st, [])
  | some f => (initialTransfer, [CMsg.fileReject f])

/-- Side effects performed by the onFileAccept handler. -/
inductive Effect where
  | createPC (target : String)
  | emit (m : CMsg)
  | log (msg : String) (t : LogType)
deriving DecidableEq

/-- Whether an effect is only a log entry (no connection created, no
message emitted). -/
def Effect.isLog : Effect → Bool
  | .log _ _ => true
  | _ => false

/-- The onFileAccept handler at the initiator: drops the event when the
accepting peer is not in the local user list; logs an error and stops
when no file is selected; otherwise moves to accepted, creates the peer
connection, arms the send path and emits the negotiation offer (the offer
body is an opaque blob). -/
def onFileAccept (users : List UserEntry) (selectedFile : Option FileMeta)
    (st : TransferState) (fromF : String) : TransferState × List Effect :=
  match users.find? (fun u => u.uid == fromF) with
  | none => (st, [])
  | some u =>
    match selectedFile with
    | none => (st, [.log "Error: No file selected to send." .error])
    | some _ =>
      ({ st with status := .accepted, toF := some fromF },
       [.log (u.nickname.name ++ " accepted the file.") .success,
        .createPC fromF,
        .emit (CMsg.rtcOffer fromF "offer")])

/-- Chunk size constant from App.jsx: const CHUNK_SIZE = 64 * 1024. -/
def CHUNK_SIZE : Nat := 64 * 1024

/-- file.slice(o, o + CHUNK_SIZE) on a file modelled as its byte list. -/
def sliceAt (l : List Nat) (o : Nat) : List Nat :=
  (l.drop o).take CHUNK_SIZE

/-- The send loop of handleFileChunk, driven by fuel for structural
recursion: read the slice at the current offset, hand it to the channel,
and continue at the advanced offset only while offset < file.size.  Fuel
of file length is always sufficient because every continuing step sends a
nonempty chunk. -/
def sendFromAux : Nat → List Nat → Nat → List (List Nat)
  | 0, l, o => [sliceAt l o]
  | fuel + 1, l, o =>
    if o + (sliceAt l o).length < l.length then
      sliceAt l o :: sendFromAux fuel l (o + (sliceAt l o).length)
    else [sliceAt l o]

/-- The ordered sequence of chunks the send path hands to the data
channel for a given file. -/
def sendChunks (l : List Nat) : List (List Nat) :=
  sendFromAux l.length l 0

/-- Observable events of the send loop: a readSlice(o) call and a
dataChannel.send of a chunk of a given length. -/
inductive SendEv where
  | readAt (o : Nat)
  | sentChunk (len : Nat)
deriving DecidableEq

/-- The event trace of the send loop: readSlice(o); onload sends the
chunk; only then, and only if offset < file.size, the next readSlice is
issued. -/
def sendTraceAux : Nat → List Nat → Nat → List SendEv
  | 0, l, o => [SendEv.readAt o, SendEv.sentChunk (sliceAt l o).length]
  | fuel + 1, l, o =>
    if o + (sliceAt l o).length < l.length then
      SendEv.readAt o :: SendEv.sentChunk (sliceAt l o).length ::
        sendTraceAux fuel l (o + (sliceAt l o).length)
    else [SendEv.readAt o, SendEv.sentChunk (sliceAt l o).length]

/-- The full send-path event trace for a file. -/
def sendTrace (l : List Nat) : List SendEv :=
  sendTraceAux l.length l 0

/-- Checks that a trace is a sequence of read-then-send pairs: every read
is followed by exactly one send before the next read is issued. -/
def altRS : List SendEv → Bool
  | [] => true
  | SendEv.readAt _ :: SendEv.sentChunk _ :: rest => altRS rest
  | _ => false

/-- The offsets at which reads are issued, in trace order. -/
def readOffsets : List SendEv → List Nat
  | [] => []
  | SendEv.readAt o :: rest => o :: readOffsets rest
  | SendEv.sentChunk _ :: rest => readOffsets rest

/-- The lengths of the chunks handed to the channel, in trace order. -/
def sentLens : List SendEv → List Nat
  | [] => []
  | SendEv.sentChunk n :: rest => n :: sentLens rest
  | SendEv.readAt _ :: rest => sentLens rest

/-- Running partial sums: the value of a cumulative byte counter after
each element. -/
def sumsFrom (acc : Nat) : List Nat → List Nat
  | [] => []
  | n :: rest => (acc + n) :: sumsFrom (acc + n) rest

/-- The cumulative byte counter values after each chunk of a chunk list. -/
def cumSizes (cs : List (List Nat)) : List Nat :=
  sumsFrom 0 (cs.map List.length)

/-- The sender offset (transferredBytes) after each chunk is sent:
offset += e.target.result.byteLength. -/
def senderOffsets (l : List Nat) : List Nat :=
  cumSizes (sendChunks l)

/-- The status the sender sets after a chunk brings the offset to o:
sending while offset < file.size, completed otherwise. -/
def senderStatus (size o : Nat) : TStatus :=
  if o < size then TStatus.sending else TStatus.completed

/-- Receiver-side state of the receive path: receivedData chunks,
receivedSize counter, last assigned status, the artifact handed to the
user (the downloaded Blob), and whether the completion branch has run. -/
structure RecvState where
  dataChunks : List (List Nat)
  receivedSize : Nat
  status : TStatus
  delivered : Option (List Nat)
  completedEver : Bool
deriving DecidableEq

/-- Receiver state when the receive path is armed (the responder set
status connecting in handleAcceptFile; buffers empty). -/
def initRecv : RecvState :=
  { dataChunks := [], receivedSize := 0, status := .connecting,
    delivered := none, completedEver := false }

/-- The receiveChannel.onmessage handler: append the chunk, add its
length to receivedSize, set status sending; when receivedSize equals the
declared fileMeta.size exactly, concatenate the buffer into the Blob,
deliver it, and set status completed. -/
def recvMsg (metaSize : Nat) (st : RecvState) (chunk : List Nat) : RecvState :=
  let dataChunks := st.dataChunks ++ [chunk]
  let sz := st.receivedSize + chunk.length
  if sz = metaSize then
    { dataChunks := dataChunks, receivedSize := sz, status := .completed,
      delivered := some dataChunks.flatten, completedEver := true }
  else
    { dataChunks := dataChunks, receivedSize := sz, status := .sending,
      delivered := st.delivered, completedEver := st.completedEver }

/-- The receive path applied to an ordered lossless sequence of arriving
chunks. -/
def recvRun (metaSize : Nat) (chunks : List (List Nat)) : RecvState :=
  chunks.foldl (recvMsg metaSize) initRecv

/-- Sample nicknames and metadata for concrete instances. -/
def nickLion : Nickname := { name := "Lion", emoji := "L" }

def nickFox : Nickname := { name := "Fox", emoji := "F" }

def metaA : FileMeta := { name := "a.txt", size := 70000, ftype := "text/plain" }

/-- Relay state with both sockets connected and both registered. -/
def stBoth : ServerState :=
  { connected := ["s1", "s2"], users := [("s1", nickLion), ("s2", nickFox)] }

/-- Relay state where socket s2 is connected but never registered. -/
def stHalf : ServerState :=
  { connected := ["s1", "s2"], users := [("s1", nickLion)] }

/-- The user-list entry for socket s2 as the initiator sees it. -/
def foxEntry : UserEntry := { uid := "s2", nickname := nickFox }

/-- An initiator state with a pending outbound request to s2. -/
def stRequesting : TransferState :=
  { initialTransfer with status := .requesting, toF := some "s2" }

/-- A responder state with a pending inbound request from s1. -/
def stReceivingFrom : TransferState :=
  { initialTransfer with status := .receiving, fromF := some "s1" }

theorem regLookup_regInsert (r : Registry) (cid cid' : String) (nk : Nickname) :
    regLookup (regInsert r cid nk) cid' =
      if cid' = cid then some nk else regLookup r cid' := by
  induction r with
  | nil =>
    by_cases h : cid' = cid
    · subst h; simp [regInsert, regLookup]
    · simp [regInsert, regLookup, h, Ne.symm h]
  | cons hd tl ih =>
    obtain ⟨k, v⟩ := hd
    by_cases hk : k = cid
    · subst hk
      by_cases h : cid' = k
      · subst h; simp [regInsert, regLookup]
      · simp [regInsert, regLookup, h, Ne.symm h]
    · by_cases h2 : cid' = k
      · subst h2
        have hcc : ¬ cid' = cid := hk
        simp [regInsert, regLookup, hk, hcc, Ne.symm hk]
      · simp [regInsert, regLookup, hk, h2, Ne.symm h2, ih]

theorem regLookup_regErase (r : Registry) (cid cid' : String) :
    regLookup (regErase r cid) cid' =
      if cid' = cid then none else regLookup r cid' := by
  induction r with
  | nil => simp [regErase, regLookup]
  | cons hd tl ih =>
    obtain ⟨k, v⟩ := hd
    simp only [regErase, List.filter_cons] at ih ⊢
    by_cases hk : k = cid
    · subst hk
      simp only [bne_self_eq_false, Bool.false_eq_true, if_false]
      rw [ih]
      by_cases h : cid' = k
      · subst h; simp
      · simp [regLookup, h, Ne.symm h]
    · have hb : (k != cid) = true := bne_iff_ne.mpr hk
      simp only [hb, if_true]
      by_cases h2 : k = cid'
      · subst h2
        have hcc : ¬ k = cid := hk
        simp [regLookup, hcc]
      · simp [regLookup, h2, ih]

theorem regLookup_regStep (r : Registry) (op : RegOp) (cid : String) :
    regLookup (regStep r op).1 cid = perIdStep cid (regLookup r cid) op := by
  cases op with
  | register c nk =>
    cases nk with
    | none => simp [regStep, perIdStep, validNick]
    | some n =>
      by_cases hv : n.name = ""
      · simp [regStep, perIdStep, validNick, hv]
      · have hv' : (n.name != "") = true := bne_iff_ne.mpr hv
        simp only [regStep, validNick, perIdStep, hv', if_true]
        rw [regLookup_regInsert]
        by_cases hc : c = cid
        · subst hc; simp
        · simp [hc, Ne.symm hc]
  | updateNick c nk =>
    cases hl : regLookup r c with
    | none =>
      simp only [regStep, perIdStep, hl]
      by_cases hc : c = cid
      · subst hc
        rw [hl]
        cases nk <;> simp
      · simp [hc]
    | some old =>
      cases nk with
      | none =>
        by_cases hc : c = cid
        · subst hc; simp [regStep, perIdStep, hl, validNick]
        · simp [regStep, perIdStep, hl, validNick, hc]
      | some n =>
        by_cases hv : n.name = ""
        · have hv' : (n.name != "") = false := by simp [hv]
          simp only [regStep, perIdStep, hl, validNick, hv', Bool.false_eq_true,
            if_false]
          by_cases hc : c = cid
          · subst hc; rw [hl]; simp [hv']
          · simp [hc]
        · have hv' : (n.name != "") = true := bne_iff_ne.mpr hv
          simp only [regStep, perIdStep, hl, validNick, hv', if_true]
          rw [regLookup_regInsert]
          by_cases hc : c = cid
          · subst hc; rw [hl]; simp [hv']
          · simp [hc, Ne.symm hc]
  | remove c =>
    cases hl : regLookup r c with
    | none =>
      simp only [regStep, perIdStep, hl]
      by_cases hc : c = cid
      · subst hc; rw [hl]; simp
      · simp [hc]
    | some old =>
      simp only [regStep, perIdStep, hl]
      rw [regLookup_regErase]
      by_cases hc : c = cid
      · subst hc; simp
      · simp [hc, Ne.symm hc]

theorem regLookup_foldl (ops : List RegOp) (r : Registry) (cid : String) :
    regLookup (ops.foldl (fun r op => (regStep r op).1) r) cid =
      ops.foldl (perIdStep cid) (regLookup r cid) := by
  induction ops generalizing r with
  | nil => rfl
  | cons op rest ih =>
    simp only [List.foldl_cons]
    rw [ih, regLookup_regStep]

theorem regStep_silent (r : Registry) (op : RegOp)
    (h : (regStep r op).2 = none) : (regStep r op).1 = r := by
  cases op with
  | register c nk =>
    cases nk with
    | none => rfl
    | some n =>
      by_cases hv : validNick (some n) = true
      · simp [regStep, hv] at h
      · simp only [Bool.not_eq_true] at hv
        simp [regStep, hv]
  | updateNick c nk =>
    cases hl : regLookup r c with
    | none => simp [regStep, hl]
    | some old =>
      cases nk with
      | none => simp [regStep, hl, validNick]
      | some n =>
        by_cases hv : validNick (some n) = true
        · simp [regStep, hl, hv] at h
        · simp only [Bool.not_eq_true] at hv
          simp [regStep, hl, hv]
  | remove c =>
    cases hl : regLookup r c with
    | none => simp [regStep, hl]
    | some old => simp [regStep, hl] at h

theorem regStep_broadcast (r : Registry) (op : RegOp) (b : Registry)
    (h : (regStep r op).2 = some b) : b = broadcastList (regStep r op).1 := by
  cases op with
  | register c nk =>
    cases nk with
    | none => simp [regStep] at h
    | some n =>
      by_cases hv : validNick (some n) = true
      · simp only [regStep, hv, if_true] at h ⊢
        simp at h
        simp [h]
      · simp only [Bool.not_eq_true] at hv
        simp [regStep, hv] at h
  | updateNick c nk =>
    cases hl : regLookup r c with
    | none => simp [regStep, hl] at h
    | some old =>
      cases nk with
      | none => simp [regStep, hl, validNick] at h
      | some n =>
        by_cases hv : validNick (some n) = true
        · simp only [regStep, hl, hv, if_true] at h ⊢
          simp at h
          simp [h]
        · simp only [Bool.not_eq_true] at hv
          simp [regStep, hl, hv] at h
  | remove c =>
    cases hl : regLookup r c with
    | none => simp [regStep, hl] at h
    | some old =>
      simp only [regStep, hl] at h ⊢
      simp at h
      simp [h]

/-- C3: for every finite sequence of register/update/remove operations,
every emitted user-list broadcast is exactly the full snapshot of the
table right after the mutation, an operation that emits no broadcast
leaves the table unchanged (so every successful mutation broadcasts), and
the table pairs each registered connection id with the most recently
accepted display identity for that id. -/
theorem registry_broadcast_exact :
    (∀ (r : Registry) (op : RegOp) (b : Registry),
      (regStep r op).2 = some b → b = broadcastList (regStep r op).1)
    ∧ (∀ (r : Registry) (op : RegOp),
      (regStep r op).2 = none → (regStep r op).1 = r)
    ∧ (∀ (ops : List RegOp) (cid : String),
      regLookup (regRun ops) cid = perIdRun cid ops) := by
  refine ⟨regStep_broadcast, regStep_silent, ?_⟩
  intro ops cid
  unfold regRun perIdRun
  rw [regLookup_foldl]
  rfl

/-- C3 witness: a concrete successful registration emits the snapshot
broadcast, and a concrete run pairs the id with its latest identity. -/
theorem registry_broadcast_exact_witness :
    (regStep [] (RegOp.register "a" (some nickLion))).2 = some [("a", nickLion)]
    ∧ [("a", nickLion)] =
        broadcastList (regStep [] (RegOp.register "a" (some nickLion))).1
    ∧ regLookup (regRun [RegOp.register "a" (some nickLion),
        RegOp.updateNick "a" (some nickFox)]) "a" =
        perIdRun "a" [RegOp.register "a" (some nickLion),
          RegOp.updateNick "a" (some nickFox)] := by
  refine ⟨by decide, ?_, ?_⟩
  · exact registry_broadcast_exact.1 [] (RegOp.register "a" (some nickLion))
      [("a", nickLion)] (by decide)
  · exact registry_broadcast_exact.2.2 [RegOp.register "a" (some nickLion),
      RegOp.updateNick "a" (some nickFox)] "a"

/-- C7: registering with an empty or malformed display identity leaves
the table unchanged and emits no broadcast; an identity update for an
unregistered connection id is a silent no-op; and for a registered id the
update behaves exactly like register (same validation, same broadcast). -/
theorem registry_invalid_and_updateNick :
    (∀ (r : Registry) (cid : String) (nk : Option Nickname),
      validNick nk = false → regStep r (.register cid nk) = (r, none))
    ∧ (∀ (r : Registry) (cid : String) (nk : Option Nickname),
      regLookup r cid = none → regStep r (.updateNick cid nk) = (r, none))
    ∧ (∀ (r : Registry) (cid : String) (nk : Option Nickname),
      regLookup r cid ≠ none →
        regStep r (.updateNick cid nk) = regStep r (.register cid nk)) := by
  refine ⟨?_, ?_, ?_⟩
  · intro r cid nk hv
    cases nk with
    | none => rfl
    | some n => simp [regStep, hv]
  · intro r cid nk hl
    simp [regStep, hl]
  · intro r cid nk hl
    cases hl2 : regLookup r cid with
    | none => exact absurd hl2 hl
    | some old =>
      cases nk with
      | none => simp [regStep, hl2, validNick]
      | some n =>
        by_cases hv : validNick (some n) = true
        · simp [regStep, hl2, hv]
        · simp at hv
          simp [regStep, hl2, hv]

/-- C7 witness: concrete invalid registration, concrete no-op update of
an unregistered id, and concrete agreement of update with register on a
registered id. -/
theorem registry_invalid_and_updateNick_witness :
    (validNick (some { name := "", emoji := "x" }) = false
      ∧ regStep [("a", nickLion)]
          (.register "a" (some { name := "", emoji := "x" })) =
          ([("a", nickLion)], none))
    ∧ (regLookup [] "b" = none
      ∧ regStep [] (.updateNick "b" (some nickFox)) = ([], none))
    ∧ (regLookup [("a", nickLion)] "a" ≠ none
      ∧ regStep [("a", nickLion)] (.updateNick "a" (some nickFox)) =
          regStep [("a", nickLion)] (.register "a" (some nickFox))) :=
  ⟨⟨by decide, registry_invalid_and_updateNick.1 [("a", nickLion)] "a"
      (some { name := "", emoji := "x" }) (by decide)⟩,
   ⟨by decide, registry_invalid_and_updateNick.2.1 [] "b" (some nickFox)
      (by decide)⟩,
   ⟨by decide, registry_invalid_and_updateNick.2.2 [("a", nickLion)] "a"
      (some nickFox) (by decide)⟩⟩

/-- C1 counterexample: the relay forwards a file-request with the from
field taken from the client-supplied message body, not the socket id of
the connection it arrived on.  Here socket s1 sends a transfer request
claiming from s9; the message forwarded to s2 carries from = s9, which
differs from the authenticated sender s1. -/
theorem fileRequest_spoofed_from :
    (route stBoth "s1" (CMsg.fileRequest "s2" "s9" metaA)).map
        (fun p => p.2.fromField) = ["s9"]
    ∧ "s9" ≠ "s1" := by
  constructor
  · rfl
  · decide

/-- C1 amended: for transfer-accept, transfer-reject, offer, answer and
ice-candidate the forwarded message carries from equal to the
authenticated sender's socket id; for transfer-request the forwarded from
is whatever from field the client supplied in the body. -/
theorem route_from_stamping (st : ServerState) (sender : String) (m : CMsg)
    (p : String × SMsg) (hp : p ∈ route st sender m) :
    p.2.fromField = (m.claimedFrom).getD sender := by
  cases m <;>
    (simp only [route, deliverTo] at hp
     split at hp <;>
       simp_all [SMsg.fromField, CMsg.claimedFrom])

/-- C1 amended witness: a concrete forwarded offer carries the sender's
socket id as from. -/
theorem route_from_stamping_witness :
    (("s2", SMsg.rtcOffer "s1" "sdp") ∈
        route stBoth "s1" (CMsg.rtcOffer "s2" "sdp"))
    ∧ (SMsg.rtcOffer "s1" "sdp").fromField =
        ((CMsg.rtcOffer "s2" "sdp").claimedFrom).getD "s1" :=
  ⟨by decide,
   route_from_stamping stBoth "s1" (CMsg.rtcOffer "s2" "sdp")
     ("s2", SMsg.rtcOffer "s1" "sdp") (by decide)⟩

/-- C2 counterexample: the relay resolves the destination against the set
of connected sockets, not against the user table.  Socket s2 is connected
but absent from the Peer Registry, yet a transfer-request addressed to it
is delivered, and processing the delivered message moves the recipient's
session from idle to receiving. -/
theorem unregistered_recipient_gets_request :
    regLookup stHalf.users "s2" = none
    ∧ route stHalf "s1" (CMsg.fileRequest "s2" "s1" metaA) =
        [("s2", SMsg.fileRequest "s1" (some nickLion) metaA)]
    ∧ (onFileRequest initialTransfer "s2" "s1" (some nickLion) metaA).status =
        TStatus.receiving
    ∧ initialTransfer.status ≠ TStatus.receiving := by
  refine ⟨rfl, rfl, rfl, by decide⟩

/-- C2 amended: a control message whose to field is not the id of any
connected socket is silently dropped: the relay delivers nothing to any
connection.  Delivery depends on connectedness only, not on Peer Registry
membership. -/
theorem route_drops_unconnected (st : ServerState) (sender : String) (m : CMsg)
    (h : st.connected.contains m.toField = false) :
    route st sender m = [] := by
  cases m <;>
    (simp only [CMsg.toField] at h
     simp at h
     simp [route, deliverTo, h])

/-- C2 amended witness: a request addressed to a socket id that is not
connected is dropped. -/
theorem route_drops_unconnected_witness :
    stBoth.connected.contains (CMsg.fileRequest "s7" "s1" metaA).toField = false
    ∧ route stBoth "s1" (CMsg.fileRequest "s7" "s1" metaA) = [] :=
  ⟨by decide,
   route_drops_unconnected stBoth "s1" (CMsg.fileRequest "s7" "s1" metaA)
     (by decide)⟩

/-- C6 counterexample: on a reject notice the initiator's handler assigns
exactly one status, idle, going there directly from requesting; no
failed/error status (and no peer-declined reason) is ever assigned, and
the log written is the peer's name followed by " rejected the file.". -/
theorem reject_skips_failed :
    (onFileReject [foxEntry] stRequesting "s2").2.1 = [TStatus.idle]
    ∧ TStatus.error ∉ (onFileReject [foxEntry] stRequesting "s2").2.1
    ∧ (onFileReject [foxEntry] stRequesting "s2").2.2 =
        [("Fox rejected the file.", LogType.error)] := by
  refine ⟨rfl, by decide, rfl⟩

/-- C6 amended: when the responder rejects, the responder's session
returns to idle and emits the reject notice to the requester; on the
notice, the initiator's session moves directly from requesting to idle,
never through completed or error, and the rejection is surfaced as an
error-level log naming the rejecting peer. -/
theorem reject_paths_return_to_idle (users : List UserEntry)
    (st stR : TransferState) (fromF rq : String) (u : UserEntry)
    (hu : users.find? (fun x => x.uid == fromF) = some u)
    (hr : stR.fromF = some rq) :
    (onFileReject users st fromF).1 = initialTransfer
    ∧ (onFileReject users st fromF).2.1 = [TStatus.idle]
    ∧ TStatus.completed ∉ (onFileReject users st fromF).2.1
    ∧ TStatus.error ∉ (onFileReject users st fromF).2.1
    ∧ (onFileReject users st fromF).2.2 =
        [(u.nickname.name ++ " rejected the file.", LogType.error)]
    ∧ (handleRejectFile stR).1 = initialTransfer
    ∧ (handleRejectFile stR).2 = [CMsg.fileReject rq] := by
  refine ⟨?_, ?_, ?_, ?_, ?_, ?_, ?_⟩ <;>
    simp [onFileReject, hu, handleRejectFile, hr]

/-- C6 amended witness: concrete reject round at both endpoints. -/
theorem reject_paths_return_to_idle_witness :
    [foxEntry].find? (fun x => x.uid == "s2") = some foxEntry
    ∧ stReceivingFrom.fromF = some "s1"
    ∧ (onFileReject [foxEntry] stRequesting "s2").1 = initialTransfer :=
  ⟨by decide, by decide,
   (reject_paths_return_to_idle [foxEntry] stRequesting stReceivingFrom
     "s2" "s1" foxEntry (by decide) (by decide)).1⟩

/-- C10: if a transfer-accept arrives while no file is selected, the
initiator's handler changes nothing and performs no effect beyond a log
entry: no peer connection is created and no message (in particular no
offer) is emitted, so the accepting responder is never notified; the
responder side has no timeout, so nothing ever moves it on. -/
theorem accept_without_file_inert (users : List UserEntry)
    (st : TransferState) (fromF : String) :
    (onFileAccept users none st fromF).1 = st
    ∧ ((onFileAccept users none st fromF).2.all Effect.isLog) = true := by
  cases h : users.find? (fun u => u.uid == fromF) with
  | none => simp [onFileAccept, h]
  | some u => simp [onFileAccept, h, Effect.isLog]

theorem sliceAt_length (l : List Nat) (o : Nat) :
    (sliceAt l o).length = min CHUNK_SIZE (l.length - o) := by
  simp [sliceAt]

theorem CHUNK_SIZE_pos : 0 < CHUNK_SIZE := by decide

theorem take_append_drop_length (n : Nat) (xs : List Nat) :
    xs.take n ++ xs.drop (xs.take n).length = xs := by
  rw [List.length_take]
  rcases Nat.le_total n xs.length with h | h
  · rw [Nat.min_eq_left h, List.take_append_drop]
  · rw [Nat.min_eq_right h, List.take_of_length_le h, List.drop_length,
      List.append_nil]

theorem flatten_sendFromAux (fuel : Nat) :
    ∀ (l : List Nat) (o : Nat), l.length - o ≤ fuel →
      (sendFromAux fuel l o).flatten = l.drop o := by
  induction fuel with
  | zero =>
    intro l o h
    have ho : l.length ≤ o := by omega
    simp [sendFromAux, sliceAt, List.drop_eq_nil_of_le ho]
  | succ fuel ih =>
    intro l o h
    by_cases hg : o + (sliceAt l o).length < l.length
    · have hlen := sliceAt_length l o
      have hC := CHUNK_SIZE_pos
      have hpos : 0 < (sliceAt l o).length := by omega
      simp only [sendFromAux, if_pos hg, List.flatten_cons]
      rw [ih l (o + (sliceAt l o).length) (by omega)]
      have hdd : l.drop (o + (sliceAt l o).length) =
          (l.drop o).drop ((sliceAt l o).length) := by
        rw [List.drop_drop]
      rw [hdd]
      have : sliceAt l o = (l.drop o).take CHUNK_SIZE := rfl
      rw [this]
      exact take_append_drop_length CHUNK_SIZE (l.drop o)
    · have hlen := sliceAt_length l o
      have hdl : (l.drop o).length ≤ CHUNK_SIZE := by
        rw [List.length_drop]
        omega
      simp only [sendFromAux, if_neg hg, List.flatten_cons, List.flatten_nil,
        List.append_nil]
      exact List.take_of_length_le hdl

theorem sendChunks_flatten (l : List Nat) : (sendChunks l).flatten = l := by
  have h := flatten_sendFromAux l.length l 0 (by omega)
  simpa [sendChunks] using h

theorem sendChunks_sum_length (l : List Nat) :
    ((sendChunks l).map List.length).sum = l.length := by
  rw [← List.length_flatten, sendChunks_flatten]

theorem sendChunks_ne_nil (l : List Nat) : sendChunks l ≠ [] := by
  unfold sendChunks
  cases l.length with
  | zero => simp [sendFromAux]
  | succ n =>
    simp only [sendFromAux]
    split <;> simp

theorem sumsFrom_chain_le (xs : List Nat) :
    ∀ acc : Nat, List.Chain' (· ≤ ·) (sumsFrom acc xs) := by
  induction xs with
  | nil => intro acc; simp [sumsFrom]
  | cons n rest ih =>
    intro acc
    cases rest with
    | nil => simp [sumsFrom]
    | cons m rest2 =>
      have h1 : sumsFrom acc (n :: m :: rest2) =
          (acc + n) :: sumsFrom (acc + n) (m :: rest2) := rfl
      have h2 : sumsFrom (acc + n) (m :: rest2) =
          (acc + n + m) :: sumsFrom (acc + n + m) rest2 := rfl
      rw [h1, h2]
      exact List.Chain'.cons (Nat.le_add_right _ _) (h2 ▸ ih (acc + n))

theorem sumsFrom_mem_le (xs : List Nat) :
    ∀ (acc : Nat), ∀ y ∈ sumsFrom acc xs, y ≤ acc + xs.sum := by
  induction xs with
  | nil => intro acc y hy; simp [sumsFrom] at hy
  | cons n rest ih =>
    intro acc y hy
    have h1 : sumsFrom acc (n :: rest) =
        (acc + n) :: sumsFrom (acc + n) rest := rfl
    rw [h1] at hy
    rcases List.mem_cons.mp hy with h | h
    · subst h
      simp only [List.sum_cons]
      omega
    · have := ih (acc + n) y h
      simp only [List.sum_cons]
      omega

theorem sumsFrom_getLast (xs : List Nat) :
    ∀ (acc : Nat), xs ≠ [] →
      (sumsFrom acc xs).getLast? = some (acc + xs.sum) := by
  induction xs with
  | nil => intro acc h; exact absurd rfl h
  | cons n rest ih =>
    intro acc _
    cases rest with
    | nil => simp [sumsFrom]
    | cons m rest2 =>
      have h1 : sumsFrom acc (n :: m :: rest2) =
          (acc + n) :: sumsFrom (acc + n) (m :: rest2) := rfl
      have h2 : sumsFrom (acc + n) (m :: rest2) =
          (acc + n + m) :: sumsFrom (acc + n + m) rest2 := rfl
      rw [h1, h2, List.getLast?_cons_cons, ← h2, ih (acc + n) (by simp)]
      simp only [List.sum_cons, Option.some.injEq]
      omega

theorem recvMsg_receivedSize (m : Nat) (st : RecvState) (c : List Nat) :
    (recvMsg m st c).receivedSize = st.receivedSize + c.length := by
  simp only [recvMsg]
  split <;> rfl

theorem recv_foldl_size (m : Nat) (cs : List (List Nat)) :
    ∀ st : RecvState, (List.foldl (recvMsg m) st cs).receivedSize =
      st.receivedSize + (cs.map List.length).sum := by
  induction cs with
  | nil => intro st; simp
  | cons c rest ih =>
    intro st
    simp only [List.foldl_cons, List.map_cons, List.sum_cons]
    rw [ih, recvMsg_receivedSize]
    omega

theorem recv_complete_of_size (m : Nat) (cs : List (List Nat)) :
    ∀ st : RecvState, cs ≠ [] →
      (List.foldl (recvMsg m) st cs).receivedSize = m →
      (List.foldl (recvMsg m) st cs).completedEver = true := by
  induction cs with
  | nil => intro st h _; exact absurd rfl h
  | cons c rest ih =>
    intro st _ hsz
    rcases rest with _ | ⟨c2, rest2⟩
    · simp only [List.foldl_cons, List.foldl_nil] at hsz ⊢
      rw [recvMsg_receivedSize] at hsz
      simp [recvMsg, hsz]
    · simp only [List.foldl_cons] at hsz ⊢
      exact ih (recvMsg m st c) (by simp) hsz

theorem recv_no_eq_aux (m : Nat) (cs : List (List Nat)) :
    ∀ st : RecvState,
      (∀ n ∈ sumsFrom st.receivedSize (cs.map List.length), n ≠ m) →
      st.completedEver = false → st.delivered = none →
      (List.foldl (recvMsg m) st cs).completedEver = false
      ∧ (List.foldl (recvMsg m) st cs).delivered = none := by
  induction cs with
  | nil => intro st _ h1 h2; exact ⟨h1, h2⟩
  | cons c rest ih =>
    intro st hn h1 h2
    have hrw : sumsFrom st.receivedSize ((c :: rest).map List.length) =
        (st.receivedSize + c.length) ::
          sumsFrom (st.receivedSize + c.length) (rest.map List.length) := rfl
    have hne : st.receivedSize + c.length ≠ m := by
      apply hn
      rw [hrw]
      exact List.mem_cons_self _ _
    simp only [List.foldl_cons]
    apply ih
    · intro n hmem
      apply hn
      rw [hrw]
      apply List.mem_cons_of_mem
      rw [recvMsg_receivedSize] at hmem
      exact hmem
    · simp [recvMsg, hne, h1]
    · simp [recvMsg, hne, h2]

theorem altRS_sendTraceAux (fuel : Nat) :
    ∀ (l : List Nat) (o : Nat), altRS (sendTraceAux fuel l o) = true := by
  induction fuel with
  | zero => intro l o; rfl
  | succ fuel ih =>
    intro l o
    by_cases hg : o + (sliceAt l o).length < l.length
    · simp only [sendTraceAux, if_pos hg]
      exact ih l _
    · simp only [sendTraceAux, if_neg hg]
      rfl

theorem readOffsets_sendTraceAux_head (fuel : Nat) (l : List Nat) (o : Nat) :
    (readOffsets (sendTraceAux fuel l o)).head? = some o := by
  cases fuel with
  | zero => rfl
  | succ fuel =>
    by_cases hg : o + (sliceAt l o).length < l.length
    · simp only [sendTraceAux, if_pos hg]
      rfl
    · simp only [sendTraceAux, if_neg hg]
      rfl

theorem readOffsets_sendTraceAux_chain (fuel : Nat) :
    ∀ (l : List Nat) (o : Nat),
      List.Chain' (· < ·) (readOffsets (sendTraceAux fuel l o)) := by
  induction fuel with
  | zero => intro l o; simp [sendTraceAux, readOffsets]
  | succ fuel ih =>
    intro l o
    by_cases hg : o + (sliceAt l o).length < l.length
    · have hlen := sliceAt_length l o
      have hC := CHUNK_SIZE_pos
      have hpos : 0 < (sliceAt l o).length := by omega
      simp only [sendTraceAux, if_pos hg]
      have hro : readOffsets (SendEv.readAt o ::
          SendEv.sentChunk (sliceAt l o).length ::
          sendTraceAux fuel l (o + (sliceAt l o).length)) =
          o :: readOffsets (sendTraceAux fuel l (o + (sliceAt l o).length)) := rfl
      rw [hro, List.chain'_cons']
      refine ⟨?_, ih l _⟩
      intro y hy
      rw [readOffsets_sendTraceAux_head] at hy
      simp only [Option.mem_def, Option.some.injEq] at hy
      omega
    · simp only [sendTraceAux, if_neg hg]
      simp [readOffsets]

theorem sentLens_sendTraceAux_le (fuel : Nat) :
    ∀ (l : List Nat) (o : Nat), ∀ x ∈ sentLens (sendTraceAux fuel l o),
      x ≤ CHUNK_SIZE := by
  induction fuel with
  | zero =>
    intro l o x hx
    simp only [sendTraceAux, sentLens, List.mem_singleton] at hx
    subst hx
    rw [sliceAt_length]
    omega
  | succ fuel ih =>
    intro l o x hx
    by_cases hg : o + (sliceAt l o).length < l.length
    · simp only [sendTraceAux, if_pos hg] at hx
      have hrw : sentLens (SendEv.readAt o ::
          SendEv.sentChunk (sliceAt l o).length ::
          sendTraceAux fuel l (o + (sliceAt l o).length)) =
          (sliceAt l o).length ::
            sentLens (sendTraceAux fuel l (o + (sliceAt l o).length)) := rfl
      rw [hrw] at hx
      rcases List.mem_cons.mp hx with h | h
      · subst h
        rw [sliceAt_length]
        omega
      · exact ih l _ x h
    · simp only [sendTraceAux, if_neg hg, sentLens, List.mem_singleton] at hx
      subst hx
      rw [sliceAt_length]
      omega

theorem sentLens_sendTraceAux_full (fuel : Nat) :
    ∀ (l : List Nat) (o i : Nat),
      i + 1 < (sentLens (sendTraceAux fuel l o)).length →
      (sentLens (sendTraceAux fuel l o)).getD i 0 = CHUNK_SIZE := by
  induction fuel with
  | zero =>
    intro l o i hi
    simp [sendTraceAux, sentLens] at hi
  | succ fuel ih =>
    intro l o i hi
    by_cases hg : o + (sliceAt l o).length < l.length
    · simp only [sendTraceAux, if_pos hg] at hi ⊢
      have hrw : sentLens (SendEv.readAt o ::
          SendEv.sentChunk (sliceAt l o).length ::
          sendTraceAux fuel l (o + (sliceAt l o).length)) =
          (sliceAt l o).length ::
            sentLens (sendTraceAux fuel l (o + (sliceAt l o).length)) := rfl
      rw [hrw] at hi ⊢
      cases i with
      | zero =>
        rw [List.getD_cons_zero, sliceAt_length]
        have hlen := sliceAt_length l o
        omega
      | succ j =>
        rw [List.getD_cons_succ]
        apply ih
        simp only [List.length_cons] at hi
        omega
    · simp only [sendTraceAux, if_neg hg, sentLens] at hi
      simp at hi

/-- C4: over a transferring session the sender offset sequence is
non-decreasing, never exceeds the file length, satisfies status completed
exactly when the offset equals the file length, and ends at the file
length; the receiver counter grows monotonically per message, ends at the
declared size having signalled completion, and the completion branch of
the receive handler fires exactly when the cumulative counter equals the
declared fileMeta.size (byte equality, never a chunk count). -/
theorem transfer_bytes_invariant (l : List Nat) :
    List.Chain' (· ≤ ·) (senderOffsets l)
    ∧ (∀ o ∈ senderOffsets l, o ≤ l.length)
    ∧ (∀ o ∈ senderOffsets l,
        (senderStatus l.length o = TStatus.completed ↔ o = l.length))
    ∧ (senderOffsets l).getLast? = some l.length
    ∧ (∀ (metaSize : Nat) (st : RecvState) (c : List Nat),
        st.receivedSize ≤ (recvMsg metaSize st c).receivedSize)
    ∧ (recvRun l.length (sendChunks l)).receivedSize = l.length
    ∧ (recvRun l.length (sendChunks l)).completedEver = true
    ∧ (∀ (metaSize : Nat) (st : RecvState) (c : List Nat),
        ((recvMsg metaSize st c).status = TStatus.completed ↔
          st.receivedSize + c.length = metaSize)) := by
  have hsum := sendChunks_sum_length l
  have hbound : ∀ o ∈ senderOffsets l, o ≤ l.length := by
    intro o ho
    have := sumsFrom_mem_le ((sendChunks l).map List.length) 0 o ho
    omega
  refine ⟨?_, hbound, ?_, ?_, ?_, ?_, ?_, ?_⟩
  · exact sumsFrom_chain_le _ 0
  · intro o ho
    have hb := hbound o ho
    unfold senderStatus
    by_cases h : o < l.length
    · simp only [if_pos h]
      constructor
      · intro hs; exact absurd hs (by decide)
      · intro he; omega
    · simp only [if_neg h]
      constructor
      · intro _; omega
      · intro _; trivial
  · unfold senderOffsets cumSizes
    rw [sumsFrom_getLast _ 0 (by simp [sendChunks_ne_nil l]), hsum]
    simp
  · intro m st c
    rw [recvMsg_receivedSize]
    omega
  · unfold recvRun
    rw [recv_foldl_size]
    simp [initRecv, hsum]
  · unfold recvRun
    apply recv_complete_of_size _ _ _ (sendChunks_ne_nil l)
    rw [recv_foldl_size]
    simp [initRecv, hsum]
  · intro m st c
    simp only [recvMsg]
    split <;> rename_i h
    · simp [h]
    · simp only []
      constructor
      · intro hs; exact absurd hs (by decide)
      · intro he; exact absurd he h

/-- C4 witness: for the concrete file of two bytes, the single offset 2
is within bounds and the completion status holds exactly at equality. -/
theorem transfer_bytes_invariant_witness :
    2 ∈ senderOffsets [1, 2]
    ∧ 2 ≤ ([1, 2] : List Nat).length
    ∧ (senderStatus ([1, 2] : List Nat).length 2 = TStatus.completed ↔
        2 = ([1, 2] : List Nat).length) :=
  ⟨by decide, (transfer_bytes_invariant [1, 2]).2.1 2 (by decide),
   (transfer_bytes_invariant [1, 2]).2.2.1 2 (by decide)⟩

/-- C5: for every file of positive size, the concatenation of the chunks
produced by the send path, reassembled in arrival order by the receive
path, is byte-for-byte the original file (covering sizes below one chunk,
at exact chunk multiples, and spanning many chunks with a short tail). -/
theorem chunk_roundtrip (l : List Nat) (h : 0 < l.length) :
    (sendChunks l).flatten = l :=
  sendChunks_flatten l

/-- C5 witness: a concrete three-byte file round-trips unchanged. -/
theorem chunk_roundtrip_witness :
    0 < ([5, 6, 7] : List Nat).length
    ∧ (sendChunks [5, 6, 7]).flatten = [5, 6, 7] :=
  ⟨by decide, chunk_roundtrip [5, 6, 7] (by decide)⟩

/-- C8: the send path alternates strictly read-then-send (the next read
is issued only after the previous chunk was handed to the channel), read
offsets are strictly increasing, every chunk is at most CHUNK_SIZE bytes,
and every chunk except possibly the last is exactly CHUNK_SIZE bytes. -/
theorem send_path_chunking (l : List Nat) :
    altRS (sendTrace l) = true
    ∧ List.Chain' (· < ·) (readOffsets (sendTrace l))
    ∧ (∀ x ∈ sentLens (sendTrace l), x ≤ CHUNK_SIZE)
    ∧ (∀ i, i + 1 < (sentLens (sendTrace l)).length →
        (sentLens (sendTrace l)).getD i 0 = CHUNK_SIZE) :=
  ⟨altRS_sendTraceAux l.length l 0,
   readOffsets_sendTraceAux_chain l.length l 0,
   fun x hx => sentLens_sendTraceAux_le l.length l 0 x hx,
   fun i hi => sentLens_sendTraceAux_full l.length l 0 i hi⟩

/-- C8 witness: the three-byte file yields one read-send pair whose
single chunk length 3 is within the chunk bound. -/
theorem send_path_chunking_witness :
    altRS (sendTrace [1, 2, 3]) = true
    ∧ (3 ∈ sentLens (sendTrace [1, 2, 3]) ∧ 3 ≤ CHUNK_SIZE) :=
  ⟨(send_path_chunking [1, 2, 3]).1,
   by decide, (send_path_chunking [1, 2, 3]).2.2.1 3 (by decide)⟩

/-- C9 counterexample: with declared size 1 and arriving chunks of one
byte each, the counter reaches exact equality on the first chunk, so
completion is signalled and the artifact is delivered, and the counter
then exceeds the declared size on the second chunk.  The claim that a
counter ever exceeding the declared size implies completion is never
signalled and nothing is ever delivered is therefore false. -/
theorem overshoot_after_completion :
    1 < (recvRun 1 [[7], [8]]).receivedSize
    ∧ (recvRun 1 [[7], [8]]).completedEver = true
    ∧ (recvRun 1 [[7], [8]]).delivered = some [7] := by
  refine ⟨by decide, rfl, rfl⟩

/-- C9 amended: completion is signalled only at exact equality of the
cumulative counter with the declared size: if no prefix of the arriving
chunks makes the counter exactly equal to fileMeta.size (in particular
when a chunk carries it straight past the size), the completion branch
never runs and no reassembled artifact is ever delivered. -/
theorem recv_requires_exact_equality (m : Nat) (cs : List (List Nat))
    (h : ∀ n ∈ cumSizes cs, n ≠ m) :
    (recvRun m cs).completedEver = false
    ∧ (recvRun m cs).delivered = none := by
  unfold recvRun
  refine recv_no_eq_aux m cs initRecv ?_ rfl rfl
  intro n hn
  apply h
  simpa [cumSizes, initRecv] using hn

/-- C9 amended witness: declared size 1 with a single two-byte chunk
jumps the counter from 0 to 2 and nothing is completed or delivered. -/
theorem recv_requires_exact_equality_witness :
    (∀ n ∈ cumSizes [[7, 8]], n ≠ 1)
    ∧ (recvRun 1 [[7, 8]]).completedEver = false
    ∧ (recvRun 1 [[7, 8]]).delivered = none :=
  ⟨by decide, (recv_requires_exact_equality 1 [[7, 8]] (by decide)).1,
   (recv_requires_exact_equality 1 [[7, 8]] (by decide)).2⟩

end Zap
